import Mathlib

/-!
Shallow embedding of `power_series.py` (class `PowerSeries`) together with the
pieces of `basic_series.py` that the verified properties use.  Python's
`Fraction` is modelled as `ℚ`, Python `int` indices as `ℤ`, and the `order`
attribute (an `int` or `None`) as `Option ℤ`.  The exceptions raised by
`inverse` / `__truediv__` (the explicit `ValueError('Division by zero')` and
the `ZeroDivisionError` coming from `Fraction` division) are modelled with
`Except Unit`.
-/

namespace power_series

/-- A Laurent power series object: the stored coefficient formula and the
`order` attribute (`none` models Python's `None` sentinel for the zero
series).  The cosmetic `length` attribute only controls `__str__`'s display
width and plays no algebraic role, so it is omitted; `first_terms` below takes
the length explicitly, exactly as the method does. -/
structure PowerSeries where
  formula : ℤ → ℚ
  order : Option ℤ

/-- Body of `__call__` (power_series.py lines 39-51), parametrised by the
current value of the `order` field: `Fraction(0)` when the order is `None` or
`n` lies strictly below it, otherwise the stored formula evaluated at `n`.
It is factored out because `get_order` probes `self(i)` while `self.order`
still holds the constructor hint. -/
def coeffWith (order : Option ℤ) (f : ℤ → ℚ) (n : ℤ) : ℚ :=
  match order with
  | none => 0
  | some o => if n < o then 0 else f n

/-- `self(n)`, i.e. `__call__` on a fully built object. -/
def PowerSeries.coeff (A : PowerSeries) (n : ℤ) : ℚ :=
  coeffWith A.order A.formula n

/-- The guard of `__init__` (line 36): `not self.order or self.order >= 0`.
In Python `not None` and `not 0` are both `True`, so the order scan runs for
a `None` hint, a zero hint and any positive hint; a negative hint is kept
verbatim. -/
def runsScan : Option ℤ → Bool
  | none => true
  | some o => decide (0 ≤ o)

/-- The `for i in range(11)` loop of `get_order` (lines 62-71), with loop
counter `i` and `fuel` iterations remaining.  While the loop runs,
`self.order` still holds the constructor hint, so every probe `self(i)` goes
through `coeffWith hint`. -/
def scanLoop (f : ℤ → ℚ) (hint : Option ℤ) : ℕ → ℕ → Option ℤ
  | _, 0 => none
  | i, fuel + 1 =>
      if coeffWith hint f (i : ℤ) ≠ 0 then some (i : ℤ)
      else scanLoop f hint (i + 1) fuel

/-- `get_order` (lines 62-71): the first index `i` with `0 ≤ i < 11` and
`self(i) != 0`, else `None` ("after a number of zeroes (default: 11) it
assumes the series is the zero series"). -/
def get_order (f : ℤ → ℚ) (hint : Option ℤ) : Option ℤ :=
  scanLoop f hint 0 11

/-- `__init__` (lines 32-37): store the formula and the order hint, then
replace the hint by the result of `get_order` unless the hint is a negative
integer.  Python's default value for the `order` argument is `0`, i.e.
`some 0` here. -/
def init (f : ℤ → ℚ) (hint : Option ℤ) : PowerSeries :=
  ⟨f, if runsScan hint then get_order f hint else hint⟩

/-- `str` of a `Fraction`: `"p"` when the denominator is 1 and `"p/q"`
otherwise (`ℚ` is stored in lowest terms exactly like `Fraction`). -/
def fractionStr (q : ℚ) : String :=
  if q.den = 1 then toString q.num else toString q.num ++ "/" ++ toString q.den

/-- `term` (lines 73-87): the degree-`n` monomial rendered as `"c"`,
`"(c)z"` or `"(c)z^n"` for `n = 0`, `n = 1` and any other `n`. -/
def PowerSeries.term (A : PowerSeries) (n : ℤ) : String :=
  if n = 0 then fractionStr (A.coeff n)
  else if n = 1 then "(" ++ fractionStr (A.coeff n) ++ ")z"
  else "(" ++ fractionStr (A.coeff n) ++ ")z^" ++ toString n

/-- `first_terms` (lines 89-109): the first `length` terms starting at the
order, with zero-coefficient terms dropped unless `show_zeros` is set; an
empty term list, and the zero series, render as `"0"`. -/
def PowerSeries.first_terms (A : PowerSeries) (length : ℕ) (show_zeros : Bool) : String :=
  match A.order with
  | none => "0"
  | some o =>
      let terms :=
        if show_zeros then
          (List.range length).map (fun i => A.term ((i : ℤ) + o))
        else
          ((List.range length).filter (fun i => A.coeff ((i : ℤ) + o) != 0)).map
            (fun i => A.term ((i : ℤ) + o))
      if terms.isEmpty then "0" else String.intercalate " + " terms

/-- `__neg__` (lines 119-125): a fresh series with formula `n ↦ -self(n)`
and the same order hint as `self` (which the constructor may rescan). -/
def PowerSeries.neg (A : PowerSeries) : PowerSeries :=
  init (fun n => -(A.coeff n)) A.order

/-- The `sum_order` computation of `__add__` (lines 136-141): minimum of the
two orders, treating `None` as the identity. -/
def sumOrder : Option ℤ → Option ℤ → Option ℤ
  | none, b => b
  | some a, none => some a
  | some a, some b => some (min a b)

/-- `__add__` (lines 127-142): coefficientwise sum, constructed with the
`sum_order` hint. -/
def PowerSeries.add (A B : PowerSeries) : PowerSeries :=
  init (fun n => A.coeff n + B.coeff n) (sumOrder A.order B.order)

/-- `__sub__` (lines 144-153): `self + (-other)`. -/
def PowerSeries.sub (A B : PowerSeries) : PowerSeries :=
  A.add B.neg

/-- Python's `range(a, b)` over integers, as the list `[a, a+1, …, b-1]`. -/
def intRange (a b : ℤ) : List ℤ :=
  (List.range (b - a).toNat).map (fun j : ℕ => a + (j : ℤ))

/-- `times_nth` (lines 155-169): `0` when either order is `None`, otherwise
the convolution sum `Σ self(i) * other(n-i)` over
`i ∈ range(self.order, -other.order + n + 1)`. -/
def PowerSeries.times_nth (A B : PowerSeries) (n : ℤ) : ℚ :=
  match A.order, B.order with
  | some oA, some oB =>
      ((intRange oA (-oB + n + 1)).map (fun i => A.coeff i * B.coeff (n - i))).sum
  | _, _ => 0

/-- `__mul__` (lines 171-182): the zero series (order hint `None`) when either
operand has order `None`, otherwise the convolution series constructed with
order hint `self.order + other.order` (which the constructor rescans whenever
that sum is non-negative). -/
def PowerSeries.mul (A B : PowerSeries) : PowerSeries :=
  match A.order, B.order with
  | some oA, some oB => init (fun n => A.times_nth B n) (some (oA + oB))
  | _, _ => init (fun _ => 0) none

/-- `invertible_factor` (lines 184-195): `self * z^(-order)`, i.e. the product
with the monomial series `PowerSeries(lambda n: 1*(n == -order), -order)`.
The `order == None` branch raises `ValueError` in Python; every modelled call
site (`inverse`) guards it, so that branch returns an arbitrary zero object
here. -/
def PowerSeries.invertible_factor (A : PowerSeries) : PowerSeries :=
  match A.order with
  | none => init (fun _ => 0) none
  | some o => A.mul (init (fun n => if n = -o then 1 else 0) (some (-o)))

/-- The recursion of `inverse_nth` (lines 197-216) on non-negative degrees:
`r(0) = 1 / inv_factor(0)` and
`r(n) = -(Σ_{i<n} r(i) * inv_factor(n-i)) / inv_factor(0)`.
Python's `Fraction` division raises `ZeroDivisionError` when
`inv_factor(0) == 0`; `ℚ` division instead returns `0` there, and the raise is
modelled by the guard in `inverse` below, which is where the first such
division is forced. -/
def PowerSeries.inverse_nthN (A : PowerSeries) : ℕ → ℚ
  | 0 => 1 / A.invertible_factor.coeff 0
  | n + 1 =>
      -(((List.range (n + 1)).attach.map
          (fun i => A.inverse_nthN i.1 * A.invertible_factor.coeff ((n : ℤ) + 1 - (i.1 : ℤ)))).sum)
        / A.invertible_factor.coeff 0
decreasing_by exact List.mem_range.mp i.2

/-- `inverse_nth` over all integer degrees: for `n < 0` Python's `range(n)`
is empty, so the method returns `-sum([]) / inv_factor(0) = 0`. -/
def PowerSeries.inverse_nth (A : PowerSeries) (n : ℤ) : ℚ :=
  if 0 ≤ n then A.inverse_nthN n.toNat
  else -(0 : ℚ) / A.invertible_factor.coeff 0

/-- `inverse` (lines 218-229): `ValueError('Division by zero')` when the order
is `None`; otherwise
`PowerSeries(lambda n: inverse_nth(n)) * PowerSeries(lambda n: 1*(n == -order), -order)`.
Constructing the first factor runs `get_order`, whose first probe forces
`inverse_nth(0) = 1 / inv_factor(0)`; Python therefore raises
`ZeroDivisionError` exactly when `inv_factor(0) == 0`, which the `if` guard
models (no later division can raise once `inv_factor(0) ≠ 0`). -/
def PowerSeries.inverse (A : PowerSeries) : Except Unit PowerSeries :=
  match A.order with
  | none => .error ()
  | some o =>
      if A.invertible_factor.coeff 0 = 0 then .error ()
      else .ok ((init (fun n => A.inverse_nth n) (some 0)).mul
                  (init (fun n => if n = -o then 1 else 0) (some (-o))))

/-- `__truediv__` (lines 231-240): `self * other.inverse()`; it raises exactly
when `other.inverse()` does. -/
def PowerSeries.truediv (A B : PowerSeries) : Except Unit PowerSeries :=
  (B.inverse).map (fun I => A.mul I)

/-- `basic_series.py` line 5-6: `zero()`, the zero series built with an
explicit `order=None`. -/
def zero : PowerSeries :=
  init (fun _ => 0) none

/-! ### Basic lemmas about `__call__`, the order scan and the constructor -/

theorem init_formula (f : ℤ → ℚ) (h : Option ℤ) : (init f h).formula = f := rfl

theorem coeff_init (f : ℤ → ℚ) (h : Option ℤ) (n : ℤ) :
    (init f h).coeff n = coeffWith (init f h).order f n := rfl

theorem coeffWith_none (f : ℤ → ℚ) (n : ℤ) : coeffWith none f n = 0 := rfl

theorem coeffWith_some (o : ℤ) (f : ℤ → ℚ) (n : ℤ) :
    coeffWith (some o) f n = if n < o then 0 else f n := rfl

theorem coeff_of_order_none {A : PowerSeries} (h : A.order = none) (n : ℤ) :
    A.coeff n = 0 := by
  simp [PowerSeries.coeff, h, coeffWith]

theorem coeff_of_order_some {A : PowerSeries} {o : ℤ} (h : A.order = some o) (n : ℤ) :
    A.coeff n = if n < o then 0 else A.formula n := by
  simp [PowerSeries.coeff, h, coeffWith]

theorem coeff_below_order {A : PowerSeries} {o : ℤ} (h : A.order = some o) {n : ℤ}
    (hn : n < o) : A.coeff n = 0 := by
  simp [coeff_of_order_some h, hn]

theorem scanLoop_eq_some (f : ℤ → ℚ) (hint : Option ℤ) {i fuel k : ℕ}
    (h1 : i ≤ k) (h2 : k < i + fuel)
    (h3 : ∀ j : ℕ, i ≤ j → j < k → coeffWith hint f (j : ℤ) = 0)
    (h4 : coeffWith hint f (k : ℤ) ≠ 0) :
    scanLoop f hint i fuel = some (k : ℤ) := by
  induction fuel generalizing i with
  | zero => omega
  | succ fuel ih =>
    rcases eq_or_lt_of_le h1 with rfl | hik
    · simp only [scanLoop]
      rw [if_pos h4]
    · have hz : coeffWith hint f (i : ℤ) = 0 := h3 i le_rfl hik
      simp only [scanLoop]
      rw [if_neg (not_not.mpr hz)]
      exact ih (by omega) (by omega) (fun j hj1 hj2 => h3 j (by omega) hj2)

theorem scanLoop_eq_none (f : ℤ → ℚ) (hint : Option ℤ) {i fuel : ℕ}
    (h : ∀ j : ℕ, i ≤ j → j < i + fuel → coeffWith hint f (j : ℤ) = 0) :
    scanLoop f hint i fuel = none := by
  induction fuel generalizing i with
  | zero => rfl
  | succ fuel ih =>
    have hz : coeffWith hint f (i : ℤ) = 0 := h i le_rfl (by omega)
    simp only [scanLoop]
    rw [if_neg (not_not.mpr hz)]
    exact ih (fun j hj1 hj2 => h j (by omega) (by omega))

theorem scanLoop_some_inv (f : ℤ → ℚ) (hint : Option ℤ) {i fuel : ℕ} {m : ℤ}
    (h : scanLoop f hint i fuel = some m) :
    ∃ k : ℕ, m = (k : ℤ) ∧ i ≤ k ∧ k < i + fuel ∧ coeffWith hint f (k : ℤ) ≠ 0 ∧
      ∀ j : ℕ, i ≤ j → j < k → coeffWith hint f (j : ℤ) = 0 := by
  induction fuel generalizing i with
  | zero => simp [scanLoop] at h
  | succ fuel ih =>
    by_cases hc : coeffWith hint f (i : ℤ) = 0
    · simp only [scanLoop] at h
      rw [if_neg (not_not.mpr hc)] at h
      obtain ⟨k, hk1, hk2, hk3, hk4, hk5⟩ := ih h
      refine ⟨k, hk1, by omega, by omega, hk4, fun j hj1 hj2 => ?_⟩
      rcases eq_or_lt_of_le hj1 with rfl | hj
      · exact hc
      · exact hk5 j (by omega) hj2
    · simp only [scanLoop] at h
      rw [if_pos hc] at h
      refine ⟨i, (Option.some.inj h).symm, le_rfl, by omega, hc, fun j hj1 hj2 => by omega⟩

theorem scanLoop_none_inv (f : ℤ → ℚ) (hint : Option ℤ) {i fuel : ℕ}
    (h : scanLoop f hint i fuel = none) :
    ∀ j : ℕ, i ≤ j → j < i + fuel → coeffWith hint f (j : ℤ) = 0 := by
  induction fuel generalizing i with
  | zero => intro j hj1 hj2; omega
  | succ fuel ih =>
    by_cases hc : coeffWith hint f (i : ℤ) = 0
    · simp only [scanLoop] at h
      rw [if_neg (not_not.mpr hc)] at h
      intro j hj1 hj2
      rcases eq_or_lt_of_le hj1 with rfl | hj
      · exact hc
      · exact ih h j (by omega) (by omega)
    · simp only [scanLoop] at h
      rw [if_pos hc] at h
      exact absurd h (by simp)

theorem init_order_of_neg (f : ℤ → ℚ) {o : ℤ} (ho : o < 0) :
    (init f (some o)).order = some o := by
  have h : runsScan (some o) = false := by simp [runsScan]; omega
  simp [init, h]

theorem init_order_of_nonneg (f : ℤ → ℚ) {o : ℤ} (ho : 0 ≤ o) :
    (init f (some o)).order = get_order f (some o) := by
  have h : runsScan (some o) = true := by simp [runsScan]; omega
  simp [init, h]

theorem init_order_none (f : ℤ → ℚ) : (init f none).order = none := by
  have h : get_order f none = none := scanLoop_eq_none f none (fun j _ _ => rfl)
  simp [init, runsScan, h]

/-- When the hint `h` is non-negative and the (hint-masked) samples vanish
strictly below `k < 11` but not at `k`, the constructor settles on order `k`. -/
theorem init_order_scan_some (f : ℤ → ℚ) {h k : ℤ} (hh : 0 ≤ h) (hk0 : 0 ≤ k) (hk : k < 11)
    (hmask : ∀ j : ℤ, 0 ≤ j → j < k → coeffWith (some h) f j = 0)
    (hnz : coeffWith (some h) f k ≠ 0) :
    (init f (some h)).order = some k := by
  rw [init_order_of_nonneg f hh]
  have hcast : ((k.toNat : ℕ) : ℤ) = k := Int.toNat_of_nonneg hk0
  rw [get_order, ← hcast]
  exact scanLoop_eq_some f (some h) (by omega) (by omega)
    (fun j hj1 hj2 => hmask (j : ℤ) (by omega) (by omega))
    (by rw [hcast]; exact hnz)

/-- When the hint `h` is non-negative and all eleven (hint-masked) samples
vanish, the constructor classifies the series as zero. -/
theorem init_order_scan_none (f : ℤ → ℚ) {h : ℤ} (hh : 0 ≤ h)
    (hmask : ∀ j : ℤ, 0 ≤ j → j < 11 → coeffWith (some h) f j = 0) :
    (init f (some h)).order = none := by
  rw [init_order_of_nonneg f hh]
  exact scanLoop_eq_none f (some h) (fun j hj1 hj2 => hmask (j : ℤ) (by omega) (by omega))

theorem init_order_inv_some (f : ℤ → ℚ) {hint : Option ℤ} {m : ℤ}
    (hrs : runsScan hint = true) (h : (init f hint).order = some m) :
    0 ≤ m ∧ m < 11 ∧ coeffWith hint f m ≠ 0 ∧
      ∀ j : ℤ, 0 ≤ j → j < m → coeffWith hint f j = 0 := by
  rw [show (init f hint).order = if runsScan hint then get_order f hint else hint from rfl,
    hrs, if_pos rfl] at h
  obtain ⟨k, hk1, hk2, hk3, hk4, hk5⟩ := scanLoop_some_inv f hint h
  subst hk1
  exact ⟨by omega, by omega, hk4, fun j hj1 hj2 => by
    have := hk5 j.toNat (by omega) (by omega)
    rwa [Int.toNat_of_nonneg hj1] at this⟩

theorem init_order_inv_none (f : ℤ → ℚ) {hint : Option ℤ}
    (hrs : runsScan hint = true) (h : (init f hint).order = none) :
    ∀ j : ℤ, 0 ≤ j → j < 11 → coeffWith hint f j = 0 := by
  rw [show (init f hint).order = if runsScan hint then get_order f hint else hint from rfl,
    hrs, if_pos rfl] at h
  intro j hj1 hj2
  have := scanLoop_none_inv f hint h j.toNat (by omega) (by omega)
  rwa [Int.toNat_of_nonneg hj1] at this

/-! ### Sums over `range`, and the Cauchy-product lemmas -/

theorem list_range_map_sum (f : ℕ → ℚ) (m : ℕ) :
    ((List.range m).map f).sum = ∑ j in Finset.range m, f j := by
  induction m with
  | zero => simp
  | succ m ih =>
      rw [List.range_succ, List.map_append, List.sum_append, Finset.sum_range_succ, ih]
      simp

theorem intRange_map_sum (g : ℤ → ℚ) (a b : ℤ) :
    ((intRange a b).map g).sum = ∑ j in Finset.range (b - a).toNat, g (a + (j : ℤ)) := by
  rw [intRange, List.map_map]
  exact list_range_map_sum (fun j => g (a + (j : ℤ))) _

theorem intRange_nil {a b : ℤ} (h : b ≤ a) : intRange a b = [] := by
  rw [intRange]
  have h0 : (b - a).toNat = 0 := by omega
  rw [h0]
  rfl

theorem times_nth_eq {A B : PowerSeries} {oA oB : ℤ} (hA : A.order = some oA)
    (hB : B.order = some oB) (n : ℤ) :
    A.times_nth B n =
      ((intRange oA (-oB + n + 1)).map (fun i => A.coeff i * B.coeff (n - i))).sum := by
  simp [PowerSeries.times_nth, hA, hB]

/-- At the index `oA + oB`, the convolution range collapses to the single
term `A(oA) * B(oB)`. -/
theorem times_nth_leading {A B : PowerSeries} {oA oB : ℤ} (hA : A.order = some oA)
    (hB : B.order = some oB) :
    A.times_nth B (oA + oB) = A.coeff oA * B.coeff oB := by
  rw [times_nth_eq hA hB, intRange_map_sum]
  have hb : (-oB + (oA + oB) + 1 - oA).toNat = 1 := by omega
  rw [hb, Finset.sum_range_one]
  norm_num

theorem mul_def {A B : PowerSeries} {oA oB : ℤ} (hA : A.order = some oA)
    (hB : B.order = some oB) :
    A.mul B = init (fun n => A.times_nth B n) (some (oA + oB)) := by
  simp [PowerSeries.mul, hA, hB]

/-- When both orders are declared, both leading coefficients are nonzero and
`oA + oB ≤ 10`, the product's constructor settles on order `oA + oB` (found
verbatim for a negative sum, and rediscovered by the bounded rescan
otherwise). -/
theorem mul_order {A B : PowerSeries} {oA oB : ℤ} (hA : A.order = some oA)
    (hB : B.order = some oB) (hcA : A.coeff oA ≠ 0) (hcB : B.coeff oB ≠ 0)
    (hle : oA + oB ≤ 10) :
    (A.mul B).order = some (oA + oB) := by
  rw [mul_def hA hB]
  rcases lt_or_le (oA + oB) 0 with hneg | hpos
  · exact init_order_of_neg _ hneg
  · apply init_order_scan_some _ hpos hpos (by omega)
    · intro j hj1 hj2
      simp only [coeffWith_some, if_pos hj2]
    · simp only [coeffWith_some, if_neg (lt_irrefl (oA + oB))]
      rw [times_nth_leading hA hB]
      exact mul_ne_zero hcA hcB

theorem mul_coeff {A B : PowerSeries} {oA oB : ℤ} (hA : A.order = some oA)
    (hB : B.order = some oB) (hcA : A.coeff oA ≠ 0) (hcB : B.coeff oB ≠ 0)
    (hle : oA + oB ≤ 10) (n : ℤ) :
    (A.mul B).coeff n = if n < oA + oB then 0 else A.times_nth B n := by
  have ho := mul_order hA hB hcA hcB hle
  rw [mul_def hA hB] at ho ⊢
  rw [coeff_init, ho, coeffWith_some]

/-! ### The monomial (indicator) series `z^d` and products with it -/

theorem ind_order {d : ℤ} (hd : d ≤ 10) :
    (init (fun n => if n = d then (1 : ℚ) else 0) (some d)).order = some d := by
  rcases lt_or_le d 0 with hneg | hpos
  · exact init_order_of_neg _ hneg
  · apply init_order_scan_some _ hpos hpos (by omega)
    · intro j hj1 hj2
      simp only [coeffWith_some, if_pos hj2]
    · simp [coeffWith_some]

theorem ind_coeff {d : ℤ} (hd : d ≤ 10) (k : ℤ) :
    (init (fun n => if n = d then (1 : ℚ) else 0) (some d)).coeff k
      = if k = d then 1 else 0 := by
  rw [coeff_init, ind_order hd, coeffWith_some]
  rcases lt_or_le k d with h | h
  · rw [if_pos h, if_neg (by omega)]
  · rw [if_neg (by omega)]

theorem times_nth_ind {X : PowerSeries} {oX d : ℤ} (hX : X.order = some oX) (hd : d ≤ 10)
    (n : ℤ) :
    X.times_nth (init (fun m => if m = d then (1 : ℚ) else 0) (some d)) n
      = X.coeff (n - d) := by
  have hMc : ∀ k, (init (fun m => if m = d then (1 : ℚ) else 0) (some d)).coeff k
      = if k = d then 1 else 0 := ind_coeff hd
  rw [times_nth_eq hX (ind_order hd), intRange_map_sum]
  rcases lt_or_le (n - d) oX with hlt | hge
  · rw [coeff_below_order hX (by omega : n - d < oX)]
    have h0 : (-d + n + 1 - oX).toNat = 0 := by omega
    rw [h0, Finset.sum_range_zero]
  · have ht : (((n - d - oX).toNat : ℕ) : ℤ) = n - d - oX := Int.toNat_of_nonneg (by omega)
    rw [Finset.sum_eq_single ((n - d - oX).toNat)]
    · rw [hMc, ht, if_pos (by ring), mul_one]
      congr 1
      ring
    · intro b hb hbne
      rw [hMc, if_neg (by omega), mul_zero]
    · intro hnot
      exfalso
      apply hnot
      rw [Finset.mem_range]
      omega

/-- Multiplying by the monomial series `z^d` shifts every coefficient by `d`
(provided the monomial's own order survives its construction, i.e. `d ≤ 10`,
and the product's rescan succeeds, i.e. `oX + d ≤ 10`). -/
theorem mul_ind_order {X : PowerSeries} {oX d : ℤ} (hX : X.order = some oX)
    (hcX : X.coeff oX ≠ 0) (hd : d ≤ 10) (hsum : oX + d ≤ 10) :
    (X.mul (init (fun m => if m = d then (1 : ℚ) else 0) (some d))).order
      = some (oX + d) :=
  mul_order hX (ind_order hd) hcX (by rw [ind_coeff hd]; simp) hsum

theorem mul_ind_coeff {X : PowerSeries} {oX d : ℤ} (hX : X.order = some oX)
    (hcX : X.coeff oX ≠ 0) (hd : d ≤ 10) (hsum : oX + d ≤ 10) (k : ℤ) :
    (X.mul (init (fun m => if m = d then (1 : ℚ) else 0) (some d))).coeff k
      = X.coeff (k - d) := by
  rw [mul_coeff hX (ind_order hd) hcX (by rw [ind_coeff hd]; simp) hsum,
    times_nth_ind hX hd]
  rcases lt_or_le k (oX + d) with h | h
  · rw [if_pos h, coeff_below_order hX (by omega : k - d < oX)]
  · rw [if_neg (by omega)]

theorem invertible_factor_order {A : PowerSeries} {o : ℤ} (hA : A.order = some o)
    (hc : A.coeff o ≠ 0) (ho : -10 ≤ o) :
    A.invertible_factor.order = some 0 := by
  simp only [PowerSeries.invertible_factor, hA]
  have h := mul_ind_order hA hc (d := -o) (by omega) (by omega)
  simpa using h

theorem invertible_factor_coeff {A : PowerSeries} {o : ℤ} (hA : A.order = some o)
    (hc : A.coeff o ≠ 0) (ho : -10 ≤ o) (k : ℤ) :
    A.invertible_factor.coeff k = A.coeff (k + o) := by
  simp only [PowerSeries.invertible_factor, hA]
  rw [mul_ind_coeff hA hc (by omega) (by omega)]
  congr 1
  ring

theorem coeffWith_zero_of (σ : Option ℤ) {g : ℤ → ℚ} {n : ℤ} (h : g n = 0) :
    coeffWith σ g n = 0 := by
  cases σ with
  | none => rfl
  | some o =>
      rw [coeffWith_some]
      split
      · rfl
      · exact h

/-- The monomial of degree 6 with coefficient 1, built like
`basic_series.monomial(6)`. -/
def mono6 : PowerSeries :=
  init (fun n : ℤ => if n = 6 then (1 : ℚ) else 0) (some 6)

/-! ### Claims -/

/-- Claim C7: `coefficient(n)` always returns an exact rational (`ℚ` by
construction); it is exactly `0` when the order is `NONE` or `n` lies
strictly below the order, and otherwise it is the stored formula's value at
`n` (Python converts it with `Fraction(...)`, which is the identity here). -/
theorem c7_coefficient_contract (A : PowerSeries) (n : ℤ) :
    (A.order = none → A.coeff n = 0) ∧
    (∀ o : ℤ, A.order = some o → n < o → A.coeff n = 0) ∧
    (∀ o : ℤ, A.order = some o → o ≤ n → A.coeff n = A.formula n) :=
  ⟨fun h => coeff_of_order_none h n,
   fun _ h hn => coeff_below_order h hn,
   fun _ h hn => by rw [coeff_of_order_some h, if_neg (by omega)]⟩

/-- Witness for C7 on the constant-2 series built with the default hint. -/
theorem c7_coefficient_contract_witness :
    (init (fun _ : ℤ => (2 : ℚ)) (some 0)).order = some 0 ∧
    (init (fun _ : ℤ => (2 : ℚ)) (some 0)).coeff (-3) = 0 ∧
    (init (fun _ : ℤ => (2 : ℚ)) (some 0)).coeff 5
      = (init (fun _ : ℤ => (2 : ℚ)) (some 0)).formula 5 :=
  ⟨by decide,
   (c7_coefficient_contract _ (-3)).2.1 0 (by decide) (by decide),
   (c7_coefficient_contract _ 5).2.2 0 (by decide) (by decide)⟩

/-- Claim C10: constructing a series with the explicit order hint `NONE`
yields the zero series no matter what the formula is: the guard
`not self.order` is true for `None`, so `get_order` runs, but every probe
`self(i)` short-circuits to `Fraction(0)` because `self.order == None`
(the formula is never applied — `coeffWith none` ignores it), so the order
stays `NONE` and every coefficient is exactly `0`. -/
theorem c10_none_hint_zero_series (f : ℤ → ℚ) (n : ℤ) :
    (init f none).order = none ∧ (init f none).coeff n = 0 :=
  ⟨init_order_none f, by rw [coeff_init, init_order_none f, coeffWith_none]⟩

/-- Claim C9: rendering the order-0 series with coefficients
`[2, 0, 5, 0, 7, …]` at length 3 gives `"2 + (5)z^2"` with zeros suppressed
and `"2 + (0)z + (5)z^2"` with zeros shown; the zero series renders as `"0"`
for every length and either flag. -/
theorem c9_rendering :
    (init (fun n : ℤ => if n = 0 then (2 : ℚ) else if n = 2 then 5 else if n = 4 then 7 else 0)
        (some 0)).first_terms 3 false = "2 + (5)z^2" ∧
    (init (fun n : ℤ => if n = 0 then (2 : ℚ) else if n = 2 then 5 else if n = 4 then 7 else 0)
        (some 0)).first_terms 3 true = "2 + (0)z + (5)z^2" ∧
    ∀ (L : ℕ) (b : Bool), zero.first_terms L b = "0" := by
  refine ⟨by decide, by decide, fun L b => ?_⟩
  have h : zero.order = none := init_order_none _
  simp [PowerSeries.first_terms, h]

/-- Claim C1 as stated is false on the code: both factors have the integer
order 6, but the constructor of the product reruns `get_order` with the hint
`12`, all eleven probes `self(0..10)` are masked to `0` by `n < self.order`,
and the product is classified as the zero series (`order = None ≠ 12`). -/
theorem c1_counterexample :
    mono6.order = some 6 ∧ (mono6.mul mono6).order = none ∧
    (mono6.mul mono6).order ≠ some (6 + 6) :=
  ⟨by decide, by decide, by decide⟩

/-- Claim C1 (amended): for series `A`, `B` whose orders are the integers
`oA`, `oB`, whose leading coefficients `A(oA)`, `B(oB)` are nonzero, and with
`oA + oB ≤ 10`, `multiply(A, B)` has order exactly `oA + oB` (a negative sum
is kept verbatim; a sum in `0..10` is rediscovered by the constructor's
bounded rescan; a sum above 10 would be misclassified as `NONE`). -/
theorem c1_amended {A B : PowerSeries} {oA oB : ℤ} (hA : A.order = some oA)
    (hB : B.order = some oB) (hcA : A.coeff oA ≠ 0) (hcB : B.coeff oB ≠ 0)
    (hle : oA + oB ≤ 10) :
    (A.mul B).order = some (oA + oB) :=
  mul_order hA hB hcA hcB hle

/-- Witness for the amended C1 on the product of two constant-1 series. -/
theorem c1_amended_witness :
    (init (fun _ : ℤ => (1 : ℚ)) (some 0)).order = some 0 ∧
    (init (fun _ : ℤ => (1 : ℚ)) (some 0)).coeff 0 ≠ 0 ∧
    ((init (fun _ : ℤ => (1 : ℚ)) (some 0)).mul
      (init (fun _ : ℤ => (1 : ℚ)) (some 0))).order = some (0 + 0) :=
  ⟨by decide, by decide,
   c1_amended (by decide) (by decide) (by decide) (by decide) (by decide)⟩

/-- Claim C2 as stated is false on the code: the constant-1 formula has its
first nonzero value at index `k = 0 < 11`, and the hint `3` is a non-negative
integer, yet the constructed order is `3`, not `0`: during `get_order` the
probes `self(0..2)` are masked to `0` by the pending hint. -/
theorem c2_counterexample :
    (init (fun _ : ℤ => (1 : ℚ)) (some 3)).order = some 3 ∧
    (init (fun _ : ℤ => (1 : ℚ)) (some 3)).order ≠ some 0 :=
  ⟨by decide, by decide⟩

/-- Claim C2 (amended): for a non-negative integer hint `h` (0 when absent),
if the formula's first nonzero value *at an index ≥ h* occurs at `k < 11`
then the constructed order is `k`; if the formula vanishes at every index
`i` with `h ≤ i < 11` then the constructed order is `NONE` (in particular
whenever the first nonzero value lies at an index ≥ 11). -/
theorem c2_amended (f : ℤ → ℚ) (h : ℤ) (hh : 0 ≤ h) :
    (∀ k : ℤ, h ≤ k → k < 11 → (∀ i : ℤ, h ≤ i → i < k → f i = 0) → f k ≠ 0 →
      (init f (some h)).order = some k) ∧
    ((∀ i : ℤ, h ≤ i → i < 11 → f i = 0) → (init f (some h)).order = none) := by
  constructor
  · intro k hk1 hk2 hzero hnz
    apply init_order_scan_some f hh (by omega) hk2
    · intro j hj1 hj2
      rw [coeffWith_some]
      rcases lt_or_le j h with hj | hj
      · rw [if_pos (by omega)]
      · rw [if_neg (by omega)]
        exact hzero j hj hj2
    · rw [coeffWith_some, if_neg (by omega)]
      exact hnz
  · intro hzero
    apply init_order_scan_none f hh
    intro j hj1 hj2
    rw [coeffWith_some]
    rcases lt_or_le j h with hj | hj
    · rw [if_pos (by omega)]
    · rw [if_neg (by omega)]
      exact hzero j hj hj2

/-- Witness for the amended C2: the degree-2 monomial formula with hint 0 is
assigned order 2. -/
theorem c2_amended_witness :
    (0 : ℤ) ≤ 0 ∧
    (init (fun i : ℤ => if i = 2 then (1 : ℚ) else 0) (some 0)).order = some 2 :=
  ⟨le_rfl, (c2_amended _ 0 le_rfl).1 2 (by omega) (by omega)
    (fun i _ h2 => by rw [if_neg (by omega)]) (by simp)⟩

/-- Claim C3 as stated is false on the code: `one + (-one)` has
`min(order, order) = 0` as its hint, but the constructor rescans the (zero)
sum formula and classifies the result as the zero series, so its order is
`None`, not `0`. -/
theorem c3_counterexample :
    (init (fun n : ℤ => if n = 0 then (1 : ℚ) else 0) (some 0)).order = some 0 ∧
    (init (fun n : ℤ => if n = 0 then (1 : ℚ) else 0) (some 0)).neg.order = some 0 ∧
    ((init (fun n : ℤ => if n = 0 then (1 : ℚ) else 0) (some 0)).add
      (init (fun n : ℤ => if n = 0 then (1 : ℚ) else 0) (some 0)).neg).order
        ≠ some (min 0 0) := by
  have hA : (init (fun n : ℤ => if n = 0 then (1 : ℚ) else 0) (some 0)).order = some 0 := by
    decide
  have hN : (init (fun n : ℤ => if n = 0 then (1 : ℚ) else 0) (some 0)).neg.order = some 0 := by
    decide
  refine ⟨hA, hN, ?_⟩
  have hnc : ∀ j : ℤ, 0 ≤ j →
      (init (fun n : ℤ => if n = 0 then (1 : ℚ) else 0) (some 0)).neg.coeff j
        = -((init (fun n : ℤ => if n = 0 then (1 : ℚ) else 0) (some 0)).coeff j) := by
    intro j hj
    simp only [PowerSeries.neg] at hN ⊢
    rw [coeff_init, hN, coeffWith_some, if_neg (by omega)]
  have hadd : ((init (fun n : ℤ => if n = 0 then (1 : ℚ) else 0) (some 0)).add
      (init (fun n : ℤ => if n = 0 then (1 : ℚ) else 0) (some 0)).neg).order = none := by
    simp only [PowerSeries.add, hA, hN, sumOrder, min_self]
    apply init_order_scan_none _ le_rfl
    intro j hj1 hj2
    rw [coeffWith_some, if_neg (by omega), hnc j hj1]
    ring
  rw [hadd]
  simp

/-- Claim C3 (amended): `add(A, B)` is constructed with the hint
`min(A.order, B.order)` (`NONE` treated as identity), and the resulting order
equals that hint when the hint is `NONE` (both operands `NONE`) or a negative
integer, or an integer `m` with `0 ≤ m ≤ 10` at which the summed coefficient
`A(m) + B(m)` is nonzero; when the leading terms cancel (or `m > 10`) the
rescan can move the order upward or to `NONE`. -/
theorem c3_amended (A B : PowerSeries) :
    (A.order = none → B.order = none → (A.add B).order = none) ∧
    (∀ m : ℤ, sumOrder A.order B.order = some m → m < 0 → (A.add B).order = some m) ∧
    (∀ m : ℤ, sumOrder A.order B.order = some m → 0 ≤ m → m ≤ 10 →
      A.coeff m + B.coeff m ≠ 0 → (A.add B).order = some m) := by
  refine ⟨?_, ?_, ?_⟩
  · intro hA hB
    simp only [PowerSeries.add, hA, hB, sumOrder]
    exact init_order_none _
  · intro m hm hneg
    simp only [PowerSeries.add, hm]
    exact init_order_of_neg _ hneg
  · intro m hm h0 h10 hnz
    simp only [PowerSeries.add, hm]
    apply init_order_scan_some _ h0 h0 (by omega)
    · intro j hj1 hj2
      rw [coeffWith_some, if_pos hj2]
    · rw [coeffWith_some, if_neg (lt_irrefl m)]
      exact hnz

/-- Witness for the amended C3 on `one + z`. -/
theorem c3_amended_witness :
    sumOrder (init (fun n : ℤ => if n = 0 then (1 : ℚ) else 0) (some 0)).order
        (init (fun n : ℤ => if n = 1 then (1 : ℚ) else 0) (some 0)).order = some 0 ∧
    ((init (fun n : ℤ => if n = 0 then (1 : ℚ) else 0) (some 0)).coeff 0 +
        (init (fun n : ℤ => if n = 1 then (1 : ℚ) else 0) (some 0)).coeff 0 ≠ 0) ∧
    ((init (fun n : ℤ => if n = 0 then (1 : ℚ) else 0) (some 0)).add
        (init (fun n : ℤ => if n = 1 then (1 : ℚ) else 0) (some 0))).order = some 0 := by
  have hsum : (init (fun n : ℤ => if n = 0 then (1 : ℚ) else 0) (some 0)).coeff 0 +
      (init (fun n : ℤ => if n = 1 then (1 : ℚ) else 0) (some 0)).coeff 0 ≠ 0 := by
    have h1 : (init (fun n : ℤ => if n = 0 then (1 : ℚ) else 0) (some 0)).coeff 0 = 1 := by
      decide
    have h2 : (init (fun n : ℤ => if n = 1 then (1 : ℚ) else 0) (some 0)).coeff 0 = 0 := by
      decide
    rw [h1, h2]
    norm_num
  exact ⟨by decide, hsum,
    (c3_amended _ _).2.2 0 (by decide) (by decide) (by decide) hsum⟩

/-- Claim C4 as stated is false on the code: with `A = B` the degree-6
monomial (orders `6`), the convolution sum at `n = 12` over
`i ∈ [6, 12 - 6]` is `1`, but `multiply(A, B).coefficient(12)` is `0`
because the product was misclassified as the zero series (see C1). -/
theorem c4_counterexample :
    (mono6.mul mono6).coeff 12 = 0 ∧
    ((intRange 6 (-6 + 12 + 1)).map
      (fun i => mono6.coeff i * mono6.coeff (12 - i))).sum = 1 := by
  have hA : mono6.order = some 6 := by decide
  have hc : mono6.coeff 6 = 1 := by decide
  refine ⟨by decide, ?_⟩
  have h1 : mono6.times_nth mono6 (6 + 6) = mono6.coeff 6 * mono6.coeff 6 :=
    times_nth_leading hA hA
  have h2 : mono6.times_nth mono6 12
      = ((intRange 6 (-6 + 12 + 1)).map
          (fun i => mono6.coeff i * mono6.coeff (12 - i))).sum :=
    times_nth_eq hA hA 12
  rw [← h2, show (12 : ℤ) = 6 + 6 by norm_num, h1, hc]
  norm_num

/-- Claim C4 (amended): for series with integer orders `oA`, `oB`, nonzero
leading coefficients and `oA + oB ≤ 10`, every coefficient of the product is
the convolution sum `Σ_{i = oA}^{n - oB} A(i) · B(n - i)`; in particular for
`A = B` the geometric series (coefficient 1 for all `n ≥ 0`),
`multiply(A, A).coefficient(n) = n + 1` for every `n ≥ 0`. -/
theorem c4_amended :
    (∀ (A B : PowerSeries) (oA oB : ℤ), A.order = some oA → B.order = some oB →
      A.coeff oA ≠ 0 → B.coeff oB ≠ 0 → oA + oB ≤ 10 → ∀ n : ℤ,
      (A.mul B).coeff n
        = ((intRange oA (-oB + n + 1)).map (fun i => A.coeff i * B.coeff (n - i))).sum) ∧
    (∀ n : ℤ, 0 ≤ n →
      ((init (fun _ : ℤ => (1 : ℚ)) (some 0)).mul
        (init (fun _ : ℤ => (1 : ℚ)) (some 0))).coeff n = (n : ℚ) + 1) := by
  constructor
  · intro A B oA oB hA hB hcA hcB hle n
    rw [mul_coeff hA hB hcA hcB hle]
    rcases lt_or_le n (oA + oB) with h | h
    · rw [if_pos h, intRange_nil (by omega : -oB + n + 1 ≤ oA)]
      rfl
    · rw [if_neg (by omega), times_nth_eq hA hB]
  · intro n hn
    have hG : (init (fun _ : ℤ => (1 : ℚ)) (some 0)).order = some 0 := by decide
    have hGc : ∀ k : ℤ, 0 ≤ k → (init (fun _ : ℤ => (1 : ℚ)) (some 0)).coeff k = 1 := by
      intro k hk
      rw [coeff_init, hG, coeffWith_some, if_neg (by omega)]
    have hc0 : (init (fun _ : ℤ => (1 : ℚ)) (some 0)).coeff 0 ≠ 0 := by
      rw [hGc 0 le_rfl]; norm_num
    rw [mul_coeff hG hG hc0 hc0 (by norm_num), if_neg (by omega),
      times_nth_eq hG hG, intRange_map_sum]
    have hcard : (-0 + n + 1 - 0).toNat = (n + 1).toNat := by omega
    rw [hcard]
    have hterm : ∀ j ∈ Finset.range (n + 1).toNat,
        (init (fun _ : ℤ => (1 : ℚ)) (some 0)).coeff (0 + (j : ℤ)) *
          (init (fun _ : ℤ => (1 : ℚ)) (some 0)).coeff (n - (0 + (j : ℤ))) = 1 := by
      intro j hj
      rw [Finset.mem_range] at hj
      rw [hGc (0 + (j : ℤ)) (by omega), hGc (n - (0 + (j : ℤ))) (by omega), mul_one]
    rw [Finset.sum_congr rfl hterm, Finset.sum_const, Finset.card_range, nsmul_eq_mul,
      mul_one]
    have : (((n + 1).toNat : ℤ) : ℚ) = ((n : ℚ) + 1) := by
      rw [Int.toNat_of_nonneg (by omega)]
      push_cast
      ring
    exact_mod_cast this

/-- Witness for the amended C4: the fifth coefficient of the squared
geometric series is 6. -/
theorem c4_amended_witness :
    (0 : ℤ) ≤ 5 ∧
    ((init (fun _ : ℤ => (1 : ℚ)) (some 0)).mul
      (init (fun _ : ℤ => (1 : ℚ)) (some 0))).coeff 5 = ((5 : ℤ) : ℚ) + 1 :=
  ⟨by omega, c4_amended.2 5 (by omega)⟩

/-- Claim C8: for every series `A`, `add(A, negate(A))` has coefficient
exactly 0 at every integer index.  This holds unconditionally: whenever the
constructor's rescan moves the negation's order, the masked positions carry
zero coefficients anyway, and when the sum's own rescan classifies the result
as the zero series all its coefficients are zero by definition. -/
theorem c8_additive_inverse (A : PowerSeries) (n : ℤ) : (A.add A.neg).coeff n = 0 := by
  have hnegc : ∀ k : ℤ, A.neg.coeff k = coeffWith A.neg.order (fun m => -(A.coeff m)) k :=
    fun _ => rfl
  rw [PowerSeries.add, coeff_init]
  cases hA : A.order with
  | none =>
      have hN : A.neg.order = none := by
        rw [PowerSeries.neg, hA]
        exact init_order_none _
      apply coeffWith_zero_of
      show A.coeff n + A.neg.coeff n = 0
      rw [coeff_of_order_none hA, coeff_of_order_none hN]
      ring
  | some o =>
      rcases lt_or_le o 0 with ho | ho
      · have hN : A.neg.order = some o := by
          rw [PowerSeries.neg, hA]
          exact init_order_of_neg _ ho
        apply coeffWith_zero_of
        show A.coeff n + A.neg.coeff n = 0
        rw [hnegc n, hN, coeffWith_some]
        rcases lt_or_le n o with hno | hno
        · rw [if_pos hno, coeff_below_order hA hno]
          ring
        · rw [if_neg (by omega)]
          ring
      · have hrs : runsScan (some o) = true := by simp [runsScan]; omega
        cases hN : A.neg.order with
        | some j =>
            have hN' : (init (fun m => -(A.coeff m)) (some o)).order = some j := by
              rw [PowerSeries.neg, hA] at hN
              exact hN
            obtain ⟨hj0, hj11, hjnz, hjmask⟩ := init_order_inv_some _ hrs hN'
            apply coeffWith_zero_of
            show A.coeff n + A.neg.coeff n = 0
            rw [hnegc n, hN, coeffWith_some]
            rcases lt_or_le n j with hnj | hnj
            · rw [if_pos hnj]
              have hz : A.coeff n = 0 := by
                rcases lt_or_le n o with hno | hno
                · exact coeff_below_order hA hno
                · have hm := hjmask n (by omega) hnj
                  rw [coeffWith_some, if_neg (by omega)] at hm
                  exact neg_eq_zero.mp hm
              rw [hz]
              ring
            · rw [if_neg (by omega)]
              ring
        | none =>
            have hN' : (init (fun m => -(A.coeff m)) (some o)).order = none := by
              rw [PowerSeries.neg, hA] at hN
              exact hN
            have hmask := init_order_inv_none _ hrs hN'
            have hAz : ∀ j : ℤ, 0 ≤ j → j < 11 → A.coeff j = 0 := by
              intro j hj1 hj2
              rcases lt_or_le j o with hjo | hjo
              · exact coeff_below_order hA hjo
              · have hm := hmask j hj1 hj2
                rw [coeffWith_some, if_neg (by omega)] at hm
                exact neg_eq_zero.mp hm
            simp only [sumOrder]
            have hord : (init (fun m => A.coeff m + A.neg.coeff m) (some o)).order = none := by
              apply init_order_scan_none _ ho
              intro j hj1 hj2
              rw [coeffWith_some]
              rcases lt_or_le j o with hjo | hjo
              · rw [if_pos hjo]
              · rw [if_neg (by omega), hAz j hj1 hj2, coeff_of_order_none hN j]
                ring
            rw [hord, coeffWith_none]

/-- Claim C6 as stated is false on the code: the monomial `z^-11`, built with
its honest order `-11`, has an integer (non-`NONE`) order, yet `inverse`
raises: the monomial `z^11` built inside `invertible_factor` is itself
misclassified as the zero series by the bounded rescan (hint 11 masks all
eleven probes), so `inv_factor(0) == Fraction(0)` and the forced evaluation
`1 / inv_factor(0)` raises `ZeroDivisionError`. -/
theorem c6_counterexample :
    (init (fun n : ℤ => if n = -11 then (1 : ℚ) else 0) (some (-11))).order = some (-11) ∧
    (init (fun n : ℤ => if n = -11 then (1 : ℚ) else 0) (some (-11))).inverse
      = Except.error () := by
  have hord : (init (fun n : ℤ => if n = -11 then (1 : ℚ) else 0) (some (-11))).order
      = some (-11) := by decide
  have hinv : (init (fun n : ℤ => if n = -11 then (1 : ℚ) else 0)
      (some (-11))).invertible_factor.coeff 0 = 0 := by decide
  refine ⟨hord, ?_⟩
  simp [PowerSeries.inverse, hord, hinv]

/-- Claim C6 (amended): `inverse(A)` raises exactly when `A.order` is `NONE`
(the explicit `ValueError`) or when the constant term of `A`'s invertible
factor is zero (the forced `1 / inv_factor(0)` raises `ZeroDivisionError`);
for any `A` whose order is an integer `o` with `o ≥ -10` and
`A.coefficient(o) ≠ 0` no error is raised and a series is returned; and
`divide(A, B)` raises exactly when `inverse(B)` raises. -/
theorem c6_amended :
    (∀ A : PowerSeries, A.order = none → A.inverse = Except.error ()) ∧
    (∀ (A : PowerSeries) (o : ℤ), A.order = some o →
      (A.inverse = Except.error () ↔ A.invertible_factor.coeff 0 = 0)) ∧
    (∀ (A : PowerSeries) (o : ℤ), A.order = some o → -10 ≤ o → A.coeff o ≠ 0 →
      ∃ I : PowerSeries, A.inverse = Except.ok I) ∧
    (∀ A B : PowerSeries, A.truediv B = Except.error () ↔ B.inverse = Except.error ()) := by
  refine ⟨?_, ?_, ?_, ?_⟩
  · intro A h
    simp [PowerSeries.inverse, h]
  · intro A o h
    simp only [PowerSeries.inverse, h]
    by_cases hc : A.invertible_factor.coeff 0 = 0
    · simp [hc]
    · simp [hc]
  · intro A o h ho hcoeff
    have h0 : A.invertible_factor.coeff 0 = A.coeff o := by
      rw [invertible_factor_coeff h hcoeff ho 0, zero_add]
    refine ⟨(init (fun n => A.inverse_nth n) (some 0)).mul
      (init (fun n => if n = -o then 1 else 0) (some (-o))), ?_⟩
    simp only [PowerSeries.inverse, h, h0]
    rw [if_neg hcoeff]
  · intro A B
    rw [PowerSeries.truediv]
    cases hI : B.inverse with
    | error e =>
        cases e
        simp [Except.map]
    | ok I =>
        simp [Except.map]

/-- Witness for the amended C6: inverting the constant-1 series succeeds, and
inverting the zero series raises. -/
theorem c6_amended_witness :
    (init (fun _ : ℤ => (1 : ℚ)) (some 0)).order = some 0 ∧
    (-10 : ℤ) ≤ 0 ∧
    (init (fun _ : ℤ => (1 : ℚ)) (some 0)).coeff 0 ≠ 0 ∧
    (∃ I : PowerSeries, (init (fun _ : ℤ => (1 : ℚ)) (some 0)).inverse = Except.ok I) ∧
    zero.inverse = Except.error () :=
  ⟨by decide, by norm_num, by decide,
   c6_amended.2.2.1 _ 0 (by decide) (by norm_num) (by decide),
   c6_amended.1 zero (init_order_none _)⟩

/-! ### The reciprocal recurrence -/

theorem inverse_nthN_zero (A : PowerSeries) :
    A.inverse_nthN 0 = 1 / A.invertible_factor.coeff 0 := by
  simp only [PowerSeries.inverse_nthN]

theorem inverse_nthN_succ (A : PowerSeries) (t : ℕ) :
    A.inverse_nthN (t + 1)
      = -(∑ i in Finset.range (t + 1),
            A.inverse_nthN i * A.invertible_factor.coeff ((t : ℤ) + 1 - (i : ℤ)))
        / A.invertible_factor.coeff 0 := by
  simp only [PowerSeries.inverse_nthN]
  rw [List.attach_map_val (List.range (t + 1))
    (fun j => A.inverse_nthN j * A.invertible_factor.coeff ((t : ℤ) + 1 - (j : ℤ))),
    list_range_map_sum]

theorem inverse_nth_nonneg (A : PowerSeries) {n : ℤ} (h : 0 ≤ n) :
    A.inverse_nth n = A.inverse_nthN n.toNat := by
  simp only [PowerSeries.inverse_nth]
  rw [if_pos h]

theorem inverse_nth_neg (A : PowerSeries) {n : ℤ} (h : n < 0) :
    A.inverse_nth n = 0 := by
  simp only [PowerSeries.inverse_nth]
  rw [if_neg (by omega)]
  simp

/-- The defining property of the reciprocal coefficients: convolving the
coefficients of an order-0 series (whose invertible factor coincides with
itself) with the `inverse_nth` sequence gives 0 at every positive degree. -/
theorem c5_key {A : PowerSeries} (hc : A.coeff 0 ≠ 0)
    (hinv : ∀ k : ℤ, A.invertible_factor.coeff k = A.coeff k)
    (m : ℕ) (hm : 1 ≤ m) :
    ∑ j in Finset.range (m + 1), A.coeff (j : ℤ) * A.inverse_nthN (m - j) = 0 := by
  obtain ⟨t, rfl⟩ : ∃ t, m = t + 1 := ⟨m - 1, by omega⟩
  have hS : A.coeff 0 * A.inverse_nthN (t + 1)
      = -(∑ i in Finset.range (t + 1),
            A.inverse_nthN i * A.coeff ((t : ℤ) + 1 - (i : ℤ))) := by
    rw [inverse_nthN_succ]
    simp only [hinv]
    rw [mul_comm, div_mul_cancel₀ _ hc]
  rw [Finset.sum_range_succ']
  have hc1 : ∀ j ∈ Finset.range (t + 1),
      A.coeff ((j + 1 : ℕ) : ℤ) * A.inverse_nthN (t + 1 - (j + 1))
        = A.inverse_nthN (t + 1 - 1 - j)
            * A.coeff ((t : ℤ) + 1 - ((t + 1 - 1 - j : ℕ) : ℤ)) := by
    intro j hj
    rw [Finset.mem_range] at hj
    have e1 : t + 1 - (j + 1) = t - j := by omega
    have e2 : t + 1 - 1 - j = t - j := by omega
    have e3 : ((t - j : ℕ) : ℤ) = (t : ℤ) - (j : ℤ) := by omega
    have e4 : ((j + 1 : ℕ) : ℤ) = (t : ℤ) + 1 - ((t : ℤ) - (j : ℤ)) := by push_cast; ring
    rw [e1, e2, e3, e4, mul_comm]
  rw [Finset.sum_congr rfl hc1, Finset.sum_range_reflect
    (fun i => A.inverse_nthN i * A.coeff ((t : ℤ) + 1 - (i : ℤ))) (t + 1)]
  simp only [Nat.cast_zero, Nat.sub_zero]
  rw [hS]
  ring

/-- Claim C5: for every series `A` of order 0 with nonzero constant term,
`multiply(A, inverse(A))` has coefficient exactly 1 at index 0 and exactly 0
at every other integer index.  The reciprocal coefficients are
`inverse_nthN`, i.e. the code's recurrence `r(0) = 1/c₀`,
`r(n) = -(Σ_{i<n} r(i)·c(n-i))/c₀`; the `Except.map` form also certifies
that `inverse` returns without raising. -/
theorem c5_inversion_round_trip (A : PowerSeries) (hA : A.order = some 0)
    (hc : A.coeff 0 ≠ 0) (n : ℤ) :
    (A.inverse).map (fun I => (A.mul I).coeff n)
      = Except.ok (if n = 0 then (1 : ℚ) else 0) := by
  have hinv : ∀ k : ℤ, A.invertible_factor.coeff k = A.coeff k := fun k => by
    rw [invertible_factor_coeff hA hc (by norm_num) k, add_zero]
  have hr0 : A.inverse_nth 0 = 1 / A.coeff 0 := by
    rw [inverse_nth_nonneg A le_rfl]
    show A.inverse_nthN 0 = 1 / A.coeff 0
    rw [inverse_nthN_zero, hinv 0]
  have hr0ne : A.inverse_nth 0 ≠ 0 := by
    rw [hr0]
    exact one_div_ne_zero hc
  have hR_ord : (init (fun m => A.inverse_nth m) (some 0)).order = some 0 := by
    apply init_order_scan_some _ le_rfl le_rfl (by norm_num)
    · intro j hj1 hj2
      exact absurd hj2 (by omega)
    · rw [coeffWith_some, if_neg (lt_irrefl 0)]
      exact hr0ne
  have hRc : ∀ k : ℤ, (init (fun m => A.inverse_nth m) (some 0)).coeff k
      = A.inverse_nth k := by
    intro k
    rw [coeff_init, hR_ord, coeffWith_some]
    rcases lt_or_le k 0 with h | h
    · rw [if_pos h, inverse_nth_neg A h]
    · rw [if_neg (by omega)]
  have hR0 : (init (fun m => A.inverse_nth m) (some 0)).coeff 0 ≠ 0 := by
    rw [hRc 0]
    exact hr0ne
  have hI_ord : ((init (fun m => A.inverse_nth m) (some 0)).mul
      (init (fun m => if m = -(0 : ℤ) then (1 : ℚ) else 0) (some (-(0 : ℤ))))).order
        = some 0 := by
    have h := mul_ind_order hR_ord hR0 (d := -(0 : ℤ)) (by norm_num) (by norm_num)
    simpa using h
  have hIc : ∀ k : ℤ, ((init (fun m => A.inverse_nth m) (some 0)).mul
      (init (fun m => if m = -(0 : ℤ) then (1 : ℚ) else 0) (some (-(0 : ℤ))))).coeff k
        = A.inverse_nth k := by
    intro k
    rw [mul_ind_coeff hR_ord hR0 (by norm_num) (by norm_num) k,
      show k - -(0 : ℤ) = k by ring, hRc]
  have hI0 : ((init (fun m => A.inverse_nth m) (some 0)).mul
      (init (fun m => if m = -(0 : ℤ) then (1 : ℚ) else 0) (some (-(0 : ℤ))))).coeff 0 ≠ 0 := by
    rw [hIc 0]
    exact hr0ne
  have hmain : (A.mul ((init (fun m => A.inverse_nth m) (some 0)).mul
      (init (fun m => if m = -(0 : ℤ) then (1 : ℚ) else 0) (some (-(0 : ℤ)))))).coeff n
        = (if n = 0 then (1 : ℚ) else 0) := by
    rcases lt_trichotomy n 0 with hn | hn | hn
    · rw [mul_coeff hA hI_ord hc hI0 (by norm_num) n, if_pos (by omega), if_neg (by omega)]
    · subst hn
      rw [mul_coeff hA hI_ord hc hI0 (by norm_num) 0, if_neg (by omega), if_pos rfl]
      have h := times_nth_leading hA hI_ord
      rw [show (0 : ℤ) + 0 = 0 by norm_num] at h
      rw [h, hIc 0, hr0, mul_one_div_cancel hc]
    · rw [mul_coeff hA hI_ord hc hI0 (by norm_num) n, if_neg (by omega),
        times_nth_eq hA hI_ord, intRange_map_sum, if_neg (by omega)]
      have hcard : (-0 + n + 1 - 0).toNat = n.toNat + 1 := by omega
      rw [hcard]
      have hterm : ∀ j ∈ Finset.range (n.toNat + 1),
          A.coeff (0 + (j : ℤ)) * ((init (fun m => A.inverse_nth m) (some 0)).mul
            (init (fun m => if m = -(0 : ℤ) then (1 : ℚ) else 0)
              (some (-(0 : ℤ))))).coeff (n - (0 + (j : ℤ)))
            = A.coeff (j : ℤ) * A.inverse_nthN (n.toNat - j) := by
        intro j hj
        rw [Finset.mem_range] at hj
        rw [zero_add, hIc, inverse_nth_nonneg A (by omega)]
        have e : (n - (j : ℤ)).toNat = n.toNat - j := by omega
        rw [e]
      rw [Finset.sum_congr rfl hterm]
      exact c5_key hc hinv n.toNat (by omega)
  have hinvf0 : A.invertible_factor.coeff 0 = A.coeff 0 := hinv 0
  simp only [PowerSeries.inverse, hA, hinvf0, if_neg hc, Except.map]
  rw [hmain]

/-- Witness for C5 on the constant-1 series at index 3. -/
theorem c5_inversion_round_trip_witness :
    (init (fun _ : ℤ => (1 : ℚ)) (some 0)).order = some 0 ∧
    (init (fun _ : ℤ => (1 : ℚ)) (some 0)).coeff 0 ≠ 0 ∧
    ((init (fun _ : ℤ => (1 : ℚ)) (some 0)).inverse).map
      (fun I => ((init (fun _ : ℤ => (1 : ℚ)) (some 0)).mul I).coeff 3)
        = Except.ok (if (3 : ℤ) = 0 then (1 : ℚ) else 0) :=
  ⟨by decide, by decide, c5_inversion_round_trip _ (by decide) (by decide) 3⟩

end power_series
